import Mathlib

/-!
# Verification of the `newc` (SVR4) CPIO codec

A shallow embedding of `src/newc.rs` from the `cpio-rs` crate.

Conventions of the embedding:
* A byte is a `Nat` (values `< 256` on real streams; the functions are total on `Nat`).
* A sequential input stream is a `List Nat` of the bytes still to be read;
  `read_exact` consumes a prefix and fails (`Truncated`, Rust's `UnexpectedEof`)
  when the stream is too short.
* A sequential output sink is a `List Nat` accumulating the bytes written so far,
  like `Vec<u8>`.  Where Rust's `Write::write` may accept only part of a buffer,
  the model takes the accepted byte count as an explicit argument.
* Rust `u32` values are `Nat`s; arithmetic that the compiled (release) code performs
  on `u32` wraps, written with an explicit `% 2 ^ 32`.
* Fallible operations return `Except`.
-/

namespace Cpio

/-- The error taxonomy of the codec: `invalidFormat` models `io::ErrorKind::InvalidData`
(bad magic, non-hex field, missing NUL, bad UTF-8) and `truncated` models the
`UnexpectedEof` produced by `read_exact` on a short stream. -/
inductive CpioError where
  | invalidFormat
  | truncated
deriving DecidableEq, Repr

/-- The single error of `impl Write for Writer`: the `UnexpectedEof` with message
"trying to write more than the specified file size" (the spec's `ExceedsDeclaredSize`). -/
inductive WriteError where
  | exceedsDeclaredSize
deriving DecidableEq, Repr

/-- `HEADER_LEN`: 6 byte magic number + 104 bytes of metadata. -/
def HEADER_LEN : Nat := 110

/-- `MAGIC_NUMBER_NEWASCII`: the bytes of `"070701"`. -/
def MAGIC_NUMBER_NEWASCII : List Nat := [48, 55, 48, 55, 48, 49]

/-- `MAGIC_NUMBER_NEWCRC`: the bytes of `"070702"`. -/
def MAGIC_NUMBER_NEWCRC : List Nat := [48, 55, 48, 55, 48, 50]

/-- `TRAILER_NAME`: the bytes of `"TRAILER!!!"`. -/
def TRAILER_NAME : List Nat := [84, 82, 65, 73, 76, 69, 82, 33, 33, 33]

/-- `fn pad(len: usize) -> Option<Vec<u8>>`: pad out to a multiple of 4 bytes. -/
def pad (len : Nat) : Option (List Nat) :=
  let overhang := len % 4
  if overhang ≠ 0 then some (List.replicate (4 - overhang) 0) else none

/-- The padding bytes `pad len` produces, as a plain list (empty when `pad` is `None`). -/
def padList (len : Nat) : List Nat :=
  match pad len with
  | some p => p
  | none => []

/-- `Read::read_exact` on a list stream: take `n` bytes or fail with `Truncated`. -/
def readExact (n : Nat) (bs : List Nat) : Except CpioError (List Nat × List Nat) :=
  if n ≤ bs.length then .ok (bs.take n, bs.drop n) else .error .truncated

/-! ## Hex formatting (`format!("{:08x}", v)`) -/

/-- The ASCII code of the lowercase hex digit of value `d < 16`. -/
def hexDigitChar (d : Nat) : Nat := if d < 10 then 48 + d else 87 + d

/-- The base-16 digit values of `v`, least significant first (empty for `0`). -/
def natToHexRev (v : Nat) : List Nat :=
  if v = 0 then [] else v % 16 :: natToHexRev (v / 16)
decreasing_by exact Nat.div_lt_self (Nat.pos_of_ne_zero (by assumption)) (by norm_num)

/-- The base-16 digit values of `v`, most significant first. -/
def hexDigitsBE (v : Nat) : List Nat := (natToHexRev v).reverse

/-- `format!("{:08x}", v)`: lowercase hex digits of `v`, left-padded with `'0'`
to a minimum width of 8 characters, as a byte list. -/
def fmtHex8 (v : Nat) : List Nat :=
  let ds := hexDigitsBE v
  List.replicate (8 - ds.length) 48 ++ ds.map hexDigitChar

/-! ## Hex parsing (`u32::from_str_radix(s, 16)`) -/

/-- `char::to_digit(16)` on a byte interpreted as a character. -/
def toDigit16 (c : Nat) : Option Nat :=
  if 48 ≤ c ∧ c ≤ 57 then some (c - 48)
  else if 97 ≤ c ∧ c ≤ 102 then some (c - 87)
  else if 65 ≤ c ∧ c ≤ 70 then some (c - 55)
  else none

/-- The digit-accumulation loop of `from_str_radix` for `u32`, radix 16:
`result = result.checked_mul(16)?; result = result.checked_add(digit)?`. -/
def parseDigits : List Nat → Nat → Option Nat
  | [], acc => some acc
  | c :: rest, acc =>
    match toDigit16 c with
    | none => none
    | some d => if acc * 16 + d < 2 ^ 32 then parseDigits rest (acc * 16 + d) else none

/-- `u32::from_str_radix(s, 16)`: an optional single leading `'+'` (byte 43) is
accepted as a sign for the unsigned type (a lone `"+"` is an error, and `'-'` is
not a sign for `u32`), then the digit loop runs over the remaining bytes. -/
def fromStrRadix16 (s : List Nat) : Option Nat :=
  match s with
  | [] => none
  | c :: rest =>
    if c = 43 then (if rest = [] then none else parseDigits rest 0)
    else parseDigits (c :: rest) 0

/-! ## UTF-8 validation (`str::from_utf8` / `String::from_utf8`) -/

/-- A UTF-8 continuation byte: `0x80 ..= 0xBF`. -/
def contByte (b : Nat) : Bool := 128 ≤ b && b ≤ 191

/-- Allowed second byte of a 3-byte sequence led by `b` (excludes overlong forms
and surrogates, as Rust's validator does). -/
def utf8Second3 (b c : Nat) : Bool :=
  if b = 224 then 160 ≤ c && c ≤ 191
  else if b = 237 then 128 ≤ c && c ≤ 159
  else contByte c

/-- Allowed second byte of a 4-byte sequence led by `b` (excludes overlong forms
and code points above `U+10FFFF`, as Rust's validator does). -/
def utf8Second4 (b c : Nat) : Bool :=
  if b = 240 then 144 ≤ c && c ≤ 191
  else if b = 244 then 128 ≤ c && c ≤ 143
  else contByte c

/-- Rust's UTF-8 validity check, recursing on a fuel counter (one unit per
encoded character, so `l.length` units always suffice).  A missing continuation
byte is read as the out-of-range value 256, which fails every range test, so a
sequence truncated at the end of the list is invalid, as in Rust. -/
def isValidUtf8Fuel : Nat → List Nat → Bool
  | 0, l => l.isEmpty
  | fuel + 1, l =>
    match l with
    | [] => true
    | b :: rest =>
      if b < 128 then isValidUtf8Fuel fuel rest
      else if 194 ≤ b && b ≤ 223 then
        contByte (rest.headD 256) && isValidUtf8Fuel fuel rest.tail
      else if 224 ≤ b && b ≤ 239 then
        utf8Second3 b (rest.headD 256) && contByte (rest.tail.headD 256) &&
          isValidUtf8Fuel fuel rest.tail.tail
      else if 240 ≤ b && b ≤ 244 then
        utf8Second4 b (rest.headD 256) && contByte (rest.tail.headD 256) &&
          contByte (rest.tail.tail.headD 256) && isValidUtf8Fuel fuel rest.tail.tail.tail
      else false

/-- Rust's UTF-8 validity check on a byte list. -/
def isValidUtf8 (l : List Nat) : Bool := isValidUtf8Fuel l.length l

/-! ## `read_hex_u32` -/

/-- `fn read_hex_u32<R: Read>(reader: &mut R) -> io::Result<u32>`: read 8 bytes,
require them to be valid UTF-8, then parse them with `u32::from_str_radix(_, 16)`;
either failure is `InvalidData`. -/
def read_hex_u32 (bs : List Nat) : Except CpioError (Nat × List Nat) := do
  let (bytes, rest) ← readExact 8 bs
  if isValidUtf8 bytes then
    match fromStrRadix16 bytes with
    | some v => .ok (v, rest)
    | none => .error .invalidFormat
  else .error .invalidFormat

/-! ## Data structures -/

/-- Whether this header is of the "new ascii" form (without checksum) or the "crc"
form which is structurally identical but includes a checksum. -/
inductive EntryType where
  | Crc
  | Newc
deriving DecidableEq, Repr

/-- Metadata about one entry from an archive.  The `name` is the byte content of
the Rust `String` (hence valid UTF-8 for any value the code constructs). -/
structure Entry where
  entry_type : EntryType
  name : List Nat
  ino : Nat
  mode : Nat
  uid : Nat
  gid : Nat
  nlink : Nat
  mtime : Nat
  file_size : Nat
  dev_major : Nat
  dev_minor : Nat
  rdev_major : Nat
  rdev_minor : Nat
  checksum : Nat
deriving DecidableEq, Repr

/-- `Entry::is_trailer`. -/
def Entry.is_trailer (e : Entry) : Bool := e.name == TRAILER_NAME

/-- `Entry::checksum()` (named `checksum_opt` because the struct field of the
same name is the stored raw value): `Some` of the stored checksum for the CRC
variant, `None` for the plain `newc` variant. -/
def Entry.checksum_opt (e : Entry) : Option Nat :=
  match e.entry_type with
  | .Crc => some e.checksum
  | .Newc => none

/-- Reads one entry header/data from an archive; `inner` is the remaining
content of the underlying stream. -/
structure Reader where
  inner : List Nat
  entry : Entry
  bytes_read : Nat
deriving DecidableEq, Repr

/-- Builds metadata for one entry to be written into an archive. -/
structure Builder where
  name : List Nat
  ino : Nat
  mode : Nat
  uid : Nat
  gid : Nat
  nlink : Nat
  mtime : Nat
  dev_major : Nat
  dev_minor : Nat
  rdev_major : Nat
  rdev_minor : Nat
deriving DecidableEq, Repr

/-- Writes one entry header/data into an archive; `inner` is the accumulated
content of the underlying sink. -/
structure Writer where
  inner : List Nat
  written : Nat
  file_size : Nat
  header_size : Nat
  header : List Nat
deriving DecidableEq, Repr

/-! ## Reader operations -/

/-- The `while name_bytes.last() == Some(&0) { name_bytes.pop(); }` loop:
drop every trailing zero byte. -/
def stripTrailingZeros (l : List Nat) : List Nat :=
  (l.reverse.dropWhile (· == 0)).reverse

/-- The `match magic.as_slice()` of `Reader::new`: map the 6 magic bytes to the
entry type, or fail with "Invalid magic number". -/
def magicToType (magic : List Nat) : Except CpioError EntryType :=
  if magic = MAGIC_NUMBER_NEWASCII then .ok .Newc
  else if magic = MAGIC_NUMBER_NEWCRC then .ok .Crc
  else .error .invalidFormat

/-- `Reader::new`: parse the magic, the thirteen 8-hex-digit fields, the
NUL-terminated name of length `namesize` (tolerating extra trailing NULs),
and the post-name alignment padding. -/
def Reader.new (bs : List Nat) : Except CpioError Reader := do
  let (magic, bs) ← readExact 6 bs
  let entry_type ← magicToType magic
  let (ino, bs) ← read_hex_u32 bs
  let (mode, bs) ← read_hex_u32 bs
  let (uid, bs) ← read_hex_u32 bs
  let (gid, bs) ← read_hex_u32 bs
  let (nlink, bs) ← read_hex_u32 bs
  let (mtime, bs) ← read_hex_u32 bs
  let (file_size, bs) ← read_hex_u32 bs
  let (dev_major, bs) ← read_hex_u32 bs
  let (dev_minor, bs) ← read_hex_u32 bs
  let (rdev_major, bs) ← read_hex_u32 bs
  let (rdev_minor, bs) ← read_hex_u32 bs
  let (name_len, bs) ← read_hex_u32 bs
  let (checksum, bs) ← read_hex_u32 bs
  let (name_bytes, bs) ← readExact name_len bs
  if name_bytes.getLast? ≠ some 0 then throw CpioError.invalidFormat
  else do
    let name := stripTrailingZeros name_bytes.dropLast
    if ¬ (isValidUtf8 name = true) then throw CpioError.invalidFormat
    else do
      let bs ←
        match pad (HEADER_LEN + name_len) with
        | some padding => do
            let (_, bs2) ← readExact padding.length bs
            pure bs2
        | none => pure bs
      pure { inner := bs
             entry := { entry_type, name, ino, mode, uid, gid, nlink, mtime, file_size,
                        dev_major, dev_minor, rdev_major, rdev_minor, checksum }
             bytes_read := 0 }

/-- `impl Read for Reader`: `read` with a caller buffer of length `bufLen`.
Returns the `Ok` count, the bytes placed in the buffer, and the new state.
The underlying list stream yields `min limit inner.length` bytes.
(`bytes_read += num_bytes as u32` never wraps because the count is bounded by
`remaining`, itself below `2^32`; see the invariant theorem.) -/
def Reader.read (r : Reader) (bufLen : Nat) : Nat × List Nat × Reader :=
  let remaining := r.entry.file_size - r.bytes_read
  let limit := min bufLen remaining
  if 0 < limit then
    let data := r.inner.take limit
    (data.length, data,
      { r with inner := r.inner.drop data.length, bytes_read := r.bytes_read + data.length })
  else (0, [], r)

/-- `Reader::finish`: drain the unread remainder of the payload into a sink,
then consume the payload alignment padding; returns the underlying stream. -/
def Reader.finish (r : Reader) : Except CpioError (List Nat) := do
  let remaining := r.entry.file_size - r.bytes_read
  let bs := r.inner.drop remaining
  match pad r.entry.file_size with
  | some padding => do
      let (_, bs2) ← readExact padding.length bs
      pure bs2
  | none => pure bs

/-- `Reader::to_writer`: copy the unread remainder of the payload to a sink,
consume the payload padding, and return `(sink contents, underlying stream)`.
(`io::copy` with a `take remaining` source copies `min remaining inner.length`.) -/
def Reader.to_writer (r : Reader) : Except CpioError (List Nat × List Nat) := do
  let remaining := r.entry.file_size - r.bytes_read
  let out := r.inner.take remaining
  let bs := r.inner.drop remaining
  match pad r.entry.file_size with
  | some padding => do
      let (_, bs2) ← readExact padding.length bs
      pure (out, bs2)
  | none => pure (out, bs)

/-- `Reader::skip`: seek past unread payload plus payload padding. -/
def Reader.skip (r : Reader) : List Nat :=
  let remaining := (r.entry.file_size - r.bytes_read) +
    (match pad r.entry.file_size with
     | some p => p.length
     | none => 0)
  r.inner.drop remaining

/-- Reading the `Reader` to exhaustion through the `Read` interface: repeatedly
ask for the remaining declared bytes until a read returns `Ok(0)` (the loop
`io::copy` performs, with at most `file_size + 1` iterations needed). -/
def Reader.readAllAux : Nat → Reader → List Nat × Reader
  | 0, r => ([], r)
  | fuel + 1, r =>
    let (n, data, r') := r.read (r.entry.file_size - r.bytes_read)
    if n = 0 then ([], r')
    else
      let (rest, r'') := Reader.readAllAux fuel r'
      (data ++ rest, r'')

/-- Read to exhaustion from the current state. -/
def Reader.readAll (r : Reader) : List Nat × Reader :=
  Reader.readAllAux (r.entry.file_size + 1) r

/-! ## Builder and Writer operations -/

/-- `Builder::new(name)`: safe defaults, `nlink = 1`, everything else 0. -/
def Builder.new (name : List Nat) : Builder :=
  { name, ino := 0, mode := 0, uid := 0, gid := 0, nlink := 1, mtime := 0,
    dev_major := 0, dev_minor := 0, rdev_major := 0, rdev_minor := 0 }

/-- `Builder::into_header`: the 6-byte magic (selected by the checksum option),
thirteen 8-hex-digit fields, the name, its NUL terminator, and alignment
padding for `HEADER_LEN + namesize`. -/
def Builder.into_header (b : Builder) (file_size : Nat) (file_checksum : Option Nat) :
    List Nat :=
  let magic := if file_checksum.isSome then MAGIC_NUMBER_NEWCRC else MAGIC_NUMBER_NEWASCII
  let name_len := b.name.length + 1
  magic ++ fmtHex8 b.ino ++ fmtHex8 b.mode ++ fmtHex8 b.uid ++ fmtHex8 b.gid ++
    fmtHex8 b.nlink ++ fmtHex8 b.mtime ++ fmtHex8 file_size ++ fmtHex8 b.dev_major ++
    fmtHex8 b.dev_minor ++ fmtHex8 b.rdev_major ++ fmtHex8 b.rdev_minor ++
    fmtHex8 name_len ++ fmtHex8 (file_checksum.getD 0) ++
    b.name ++ [0] ++ padList (HEADER_LEN + name_len)

/-- `Builder::write`: build the "new ascii" header and wrap the sink. -/
def Builder.write (b : Builder) (w : List Nat) (file_size : Nat) : Writer :=
  let header := b.into_header file_size none
  { inner := w, written := 0, file_size, header_size := header.length, header }

/-- `Builder::write_crc`: build the "new crc" header and wrap the sink. -/
def Builder.write_crc (b : Builder) (w : List Nat) (file_size : Nat)
    (file_checksum : Nat) : Writer :=
  let header := b.into_header file_size (some file_checksum)
  { inner := w, written := 0, file_size, header_size := header.length, header }

/-- `Writer::try_write_header`: flush the buffered header bytes, once. -/
def Writer.try_write_header (w : Writer) : Writer :=
  if w.header ≠ [] then { w with inner := w.inner ++ w.header, header := [] } else w

/-- `impl Write for Writer`: the guard `self.written + buf.len() as u32 <= self.file_size`
computed in `u32` arithmetic (the length cast truncates mod `2^32` and the addition
wraps, as the compiled release code does); on success the pending header is flushed,
the sink accepts `accepted ≤ buf.length` bytes (the count the underlying `write`
returns; `buf.len()` itself for a `Vec<u8>` sink), and `written += n as u32`. -/
def Writer.write (w : Writer) (buf : List Nat) (accepted : Nat) :
    Except WriteError (Nat × Writer) :=
  if (w.written + buf.length % 2 ^ 32) % 2 ^ 32 ≤ w.file_size then
    let w1 := w.try_write_header
    .ok (accepted,
      { w1 with inner := w1.inner ++ buf.take accepted,
                written := (w1.written + accepted % 2 ^ 32) % 2 ^ 32 })
  else .error .exceedsDeclaredSize

/-- `Writer::do_finish`: flush the pending header; if the declared size was met,
emit alignment padding for `header_size + file_size` and flush. -/
def Writer.do_finish (w : Writer) : Writer :=
  let w1 := w.try_write_header
  if w1.written = w1.file_size then
    match pad (w1.header_size + w1.file_size) with
    | some p => { w1 with inner := w1.inner ++ p }
    | none => w1
  else w1

/-- `Writer::finish`: run `do_finish` and hand the sink back (the list sink
itself never fails, so this is total). -/
def Writer.finish (w : Writer) : List Nat :=
  w.do_finish.inner

/-- `fn trailer<W: Write>(w: W)`: write the trailer entry (name `TRAILER!!!`,
`nlink = 1`, size 0) and finish it. -/
def trailer (w : List Nat) : List Nat :=
  let b := { Builder.new TRAILER_NAME with nlink := 1 }
  (b.write w 0).finish

/-! ## Well-formedness of a Rust-side `Builder` value

The Rust fields are `u32`s and the name is a `String`, so every value the Rust
code can hold satisfies this predicate (the `+ 1 < 2 ^ 32` bound on the name
makes the `usize` namesize field fit its 8 hex digits). -/

def Builder.wf (b : Builder) : Prop :=
  b.ino < 2 ^ 32 ∧ b.mode < 2 ^ 32 ∧ b.uid < 2 ^ 32 ∧ b.gid < 2 ^ 32 ∧
  b.nlink < 2 ^ 32 ∧ b.mtime < 2 ^ 32 ∧ b.dev_major < 2 ^ 32 ∧ b.dev_minor < 2 ^ 32 ∧
  b.rdev_major < 2 ^ 32 ∧ b.rdev_minor < 2 ^ 32 ∧ b.name.length + 1 < 2 ^ 32 ∧
  isValidUtf8 b.name = true

instance (b : Builder) : Decidable b.wf := by
  unfold Builder.wf
  infer_instance

/-- The encode pipeline of the round-trip property: build the entry writer on an
empty sink (`write` or `write_crc` by the checksum option), write the whole
payload (a `Vec<u8>`-like sink accepts every byte), and call `finish`. -/
def writeEntryBytes (b : Builder) (ck : Option Nat) (payload : List Nat) :
    Except WriteError (List Nat) := do
  let w0 := match ck with
    | none => b.write [] payload.length
    | some c => b.write_crc [] payload.length c
  let (_, w1) ← w0.write payload payload.length
  pure w1.finish

/-! ## Specification-side vocabulary

Definitions below formalise the words of the claims ("hex digit", "the value
the digits denote", the wire shape of one header) and are used to state the
theorems; they are not part of the embedded program. -/

/-- An ASCII hex digit byte: `0-9`, `a-f` or `A-F`. -/
def isHexDigitByte (b : Nat) : Bool :=
  (48 ≤ b && b ≤ 57) || (97 ≤ b && b ≤ 102) || (65 ≤ b && b ≤ 70)

/-- The value of one hex digit byte. -/
def hexDigitVal (b : Nat) : Nat :=
  if b ≤ 57 then b - 48 else if b ≤ 70 then b - 55 else b - 87

/-- One step of big-endian base-16 accumulation over digit bytes. -/
def hexStep (a b : Nat) : Nat := a * 16 + hexDigitVal b

/-- The value denoted by a big-endian string of hex digit bytes. -/
def hexListVal (l : List Nat) : Nat := l.foldl hexStep 0

/-- The value denoted by a big-endian list of digit values. -/
def hexValBE (l : List Nat) : Nat := l.foldl (fun a d => a * 16 + d) 0

/-- The byte pattern on which the eight-byte field decoder succeeds:
all hex digits, or a leading `'+'` followed by hex digits. -/
def hexFieldOk (bs : List Nat) : Bool :=
  bs.all isHexDigitByte || (bs.head? == some 43 && bs.tail.all isHexDigitByte)

/-- The value the field decoder returns on success. -/
def hexFieldVal (bs : List Nat) : Nat :=
  hexListVal (if bs.head? == some 43 then bs.tail else bs)

/-- The magic bytes of an entry type. -/
def magicOf : EntryType → List Nat
  | .Newc => MAGIC_NUMBER_NEWASCII
  | .Crc => MAGIC_NUMBER_NEWCRC

/-- The wire shape of one encoded entry header followed by `rest`: magic,
twelve 8-hex-digit fields, the namesize field (the length of the raw name
field `nb`), the check field, the raw name field, and the alignment padding
for `HEADER_LEN + namesize`. -/
def headerStream (et : EntryType) (ino mode uid gid nlink mtime file_size dev_major
    dev_minor rdev_major rdev_minor check : Nat) (nb rest : List Nat) : List Nat :=
  magicOf et ++ fmtHex8 ino ++ fmtHex8 mode ++ fmtHex8 uid ++ fmtHex8 gid ++
    fmtHex8 nlink ++ fmtHex8 mtime ++ fmtHex8 file_size ++ fmtHex8 dev_major ++
    fmtHex8 dev_minor ++ fmtHex8 rdev_major ++ fmtHex8 rdev_minor ++
    fmtHex8 nb.length ++ fmtHex8 check ++ nb ++ padList (HEADER_LEN + nb.length) ++ rest

/-! ## Basic lemmas -/

theorem padList_eq (n : Nat) : padList n = List.replicate ((4 - n % 4) % 4) 0 := by
  unfold padList pad
  by_cases h : n % 4 = 0
  · simp [h]
  · have h4 : n % 4 < 4 := Nat.mod_lt _ (by norm_num)
    have he : (4 - n % 4) % 4 = 4 - n % 4 := Nat.mod_eq_of_lt (by omega)
    simp only [h, ne_eq, not_false_eq_true, if_true, he]

theorem padList_length (n : Nat) : (padList n).length = (4 - n % 4) % 4 := by
  rw [padList_eq, List.length_replicate]

theorem readExact_append (l rest : List Nat) :
    readExact l.length (l ++ rest) = .ok (l, rest) := by
  unfold readExact
  rw [if_pos (by simp), List.take_left, List.drop_left]

theorem readExact_append' {n : Nat} (l rest : List Nat) (h : l.length = n) :
    readExact n (l ++ rest) = .ok (l, rest) := by
  subst h; exact readExact_append l rest

theorem stripTrailingZeros_of_getLast? {l : List Nat} (h : l.getLast? ≠ some 0) :
    stripTrailingZeros l = l := by
  unfold stripTrailingZeros
  cases hr : l.reverse with
  | nil =>
    have : l = [] := by simpa using congrArg List.reverse hr
    simp [this]
  | cons a t =>
    have ha : a ≠ 0 := by
      intro h0
      apply h
      rw [← List.head?_reverse, hr, h0]
      rfl
    rw [List.dropWhile_cons_of_neg (by simpa using ha)]
    rw [← hr, List.reverse_reverse]

theorem stripTrailingZeros_append_zero (l : List Nat) :
    stripTrailingZeros (l ++ [0]) = stripTrailingZeros l := by
  unfold stripTrailingZeros
  rw [List.reverse_append]
  simp [List.dropWhile_cons]

/-! ## Hex formatting and parsing lemmas -/

theorem hexDigitChar_lt (d : Nat) (h : d < 16) : hexDigitChar d < 128 := by
  unfold hexDigitChar; split <;> omega

theorem hexDigitChar_ne_43 (d : Nat) : hexDigitChar d ≠ 43 := by
  unfold hexDigitChar; split <;> omega

theorem isHexDigitByte_hexDigitChar (d : Nat) (h : d < 16) :
    isHexDigitByte (hexDigitChar d) = true := by
  unfold isHexDigitByte hexDigitChar
  split <;> simp <;> omega

theorem hexDigitVal_hexDigitChar (d : Nat) (h : d < 16) :
    hexDigitVal (hexDigitChar d) = d := by
  unfold hexDigitVal hexDigitChar
  split <;> (repeat' split) <;> omega

theorem isHexDigitByte_iff (b : Nat) : isHexDigitByte b = true ↔
    ((48 ≤ b ∧ b ≤ 57) ∨ (97 ≤ b ∧ b ≤ 102) ∨ (65 ≤ b ∧ b ≤ 70)) := by
  unfold isHexDigitByte
  simp only [Bool.or_eq_true, Bool.and_eq_true, decide_eq_true_eq]
  tauto

theorem toDigit16_eq_of_isHexDigitByte {b : Nat} (h : isHexDigitByte b = true) :
    toDigit16 b = some (hexDigitVal b) := by
  rw [isHexDigitByte_iff] at h
  unfold toDigit16 hexDigitVal
  rcases h with ⟨h1, h2⟩ | ⟨h1, h2⟩ | ⟨h1, h2⟩
  · rw [if_pos ⟨h1, h2⟩, if_pos h2]
  · rw [if_neg (by omega), if_pos ⟨h1, h2⟩, if_neg (by omega), if_neg (by omega)]
  · rw [if_neg (by omega), if_neg (by omega), if_pos ⟨h1, h2⟩, if_neg (by omega),
      if_pos (by omega)]

theorem toDigit16_none_of_not_isHexDigitByte {b : Nat} (h : isHexDigitByte b = false) :
    toDigit16 b = none := by
  have h' : ¬ ((48 ≤ b ∧ b ≤ 57) ∨ (97 ≤ b ∧ b ≤ 102) ∨ (65 ≤ b ∧ b ≤ 70)) := by
    rw [← isHexDigitByte_iff, h]
    exact Bool.false_ne_true
  unfold toDigit16
  rw [if_neg fun hc => h' (Or.inl hc), if_neg fun hc => h' (Or.inr (Or.inl hc)),
    if_neg fun hc => h' (Or.inr (Or.inr hc))]

theorem natToHexRev_mem_lt (v : Nat) : ∀ d ∈ natToHexRev v, d < 16 := by
  induction v using Nat.strong_induction_on with
  | _ v ih =>
    rw [natToHexRev]
    split
    · simp
    · rename_i hv
      intro d hd
      rcases List.mem_cons.mp hd with h | h
      · subst h; exact Nat.mod_lt _ (by norm_num)
      · exact ih (v / 16) (Nat.div_lt_self (Nat.pos_of_ne_zero hv) (by norm_num)) d h

theorem natToHexRev_length_le : ∀ (k v : Nat), v < 16 ^ k → (natToHexRev v).length ≤ k := by
  intro k
  induction k with
  | zero =>
    intro v hv
    interval_cases v
    rw [natToHexRev]; simp
  | succ k ih =>
    intro v hv
    rw [natToHexRev]
    split
    · simp
    · rename_i hv0
      simp only [List.length_cons]
      have : v / 16 < 16 ^ k := by
        rw [Nat.div_lt_iff_lt_mul (by norm_num)]
        calc v < 16 ^ (k + 1) := hv
        _ = 16 ^ k * 16 := by ring
      exact Nat.succ_le_succ (ih _ this)

theorem except_ok_bind {ε α β : Type} (a : α) (f : α → Except ε β) :
    (Except.ok (ε := ε) a >>= f) = f a := rfl

theorem except_error_bind {ε α β : Type} (e : ε) (f : α → Except ε β) :
    (Except.error (α := α) e >>= f) = Except.error e := rfl

theorem hexValBE_natToHexRev (v : Nat) : hexValBE (natToHexRev v).reverse = v := by
  induction v using Nat.strong_induction_on with
  | _ v ih =>
    rw [natToHexRev]
    split
    · rename_i hv; subst hv; rfl
    · rename_i hv
      simp only [List.reverse_cons]
      unfold hexValBE
      rw [List.foldl_append]
      have := ih (v / 16) (Nat.div_lt_self (Nat.pos_of_ne_zero hv) (by norm_num))
      unfold hexValBE at this
      rw [this]
      simp only [List.foldl_cons, List.foldl_nil]
      omega

theorem foldl_hexStep_acc (l : List Nat) : ∀ acc : Nat,
    l.foldl hexStep acc = acc * 16 ^ l.length + l.foldl hexStep 0 := by
  induction l with
  | nil => intro acc; simp
  | cons c t ih =>
    intro acc
    simp only [List.foldl_cons, List.length_cons, hexStep]
    rw [ih (acc * 16 + hexDigitVal c), ih (0 * 16 + hexDigitVal c)]
    ring

theorem parseDigits_all_of_ok {l : List Nat} : ∀ {acc v : Nat},
    parseDigits l acc = some v → l.all isHexDigitByte = true := by
  induction l with
  | nil => intro _ _ _; rfl
  | cons c t ih =>
    intro acc v h
    simp only [parseDigits] at h
    cases hcb : isHexDigitByte c with
    | false =>
      simp only [toDigit16_none_of_not_isHexDigitByte hcb] at h
      exact Option.noConfusion h
    | true =>
      simp only [toDigit16_eq_of_isHexDigitByte hcb] at h
      simp only [List.all_cons, hcb, Bool.true_and]
      by_cases hlt : acc * 16 + hexDigitVal c < 2 ^ 32
      · rw [if_pos hlt] at h; exact ih h
      · rw [if_neg hlt] at h; cases h

theorem parseDigits_of_all {l : List Nat} : ∀ {acc : Nat},
    l.all isHexDigitByte = true → l.foldl hexStep acc < 2 ^ 32 →
    parseDigits l acc = some (l.foldl hexStep acc) := by
  induction l with
  | nil => intro _ _ _; rfl
  | cons c t ih =>
    intro acc hall hb
    simp only [List.all_cons, Bool.and_eq_true] at hall
    obtain ⟨hc, ht⟩ := hall
    simp only [parseDigits, toDigit16_eq_of_isHexDigitByte hc]
    simp only [List.foldl_cons] at hb ⊢
    have h16 : 1 ≤ 16 ^ t.length := Nat.one_le_pow _ _ (by norm_num)
    have h1 : hexStep acc c ≤ t.foldl hexStep (hexStep acc c) := by
      rw [foldl_hexStep_acc t (hexStep acc c)]
      calc hexStep acc c = hexStep acc c * 1 := by ring
        _ ≤ hexStep acc c * 16 ^ t.length := Nat.mul_le_mul_left _ h16
        _ ≤ hexStep acc c * 16 ^ t.length + t.foldl hexStep 0 := Nat.le_add_right _ _
    have hstep : acc * 16 + hexDigitVal c < 2 ^ 32 := by
      have h2 : hexStep acc c < 2 ^ 32 := lt_of_le_of_lt h1 hb
      simpa [hexStep] using h2
    rw [if_pos hstep]
    exact ih ht hb

theorem parseDigits_replicate_48 : ∀ (k : Nat) (rest : List Nat),
    parseDigits (List.replicate k 48 ++ rest) 0 = parseDigits rest 0 := by
  intro k
  induction k with
  | zero => intro rest; rfl
  | succ k ih =>
    intro rest
    rw [List.replicate_succ, List.cons_append]
    simp only [parseDigits, show toDigit16 48 = some 0 from rfl]
    rw [if_pos (by norm_num)]
    exact ih rest

theorem fmtHex8_length {v : Nat} (h : v < 2 ^ 32) : (fmtHex8 v).length = 8 := by
  unfold fmtHex8 hexDigitsBE
  have hlen : (natToHexRev v).length ≤ 8 :=
    natToHexRev_length_le 8 v (by norm_num at h ⊢; omega)
  simp only [List.length_append, List.length_replicate, List.length_map,
    List.length_reverse]
  omega

theorem fmtHex8_mem {v c : Nat} (hc : c ∈ fmtHex8 v) :
    c = 48 ∨ ∃ d, d < 16 ∧ c = hexDigitChar d := by
  unfold fmtHex8 hexDigitsBE at hc
  rcases List.mem_append.mp hc with h | h
  · left; exact List.eq_of_mem_replicate h
  · right
    rcases List.mem_map.mp h with ⟨d, hd, rfl⟩
    exact ⟨d, natToHexRev_mem_lt v d (List.mem_reverse.mp hd), rfl⟩

theorem fmtHex8_lt_128 {v : Nat} : ∀ c ∈ fmtHex8 v, c < 128 := by
  intro c hc
  rcases fmtHex8_mem hc with h | ⟨d, hd, rfl⟩
  · omega
  · exact hexDigitChar_lt d hd

theorem fmtHex8_ne_43 {v c : Nat} (hc : c ∈ fmtHex8 v) : c ≠ 43 := by
  rcases fmtHex8_mem hc with h | ⟨d, _, rfl⟩
  · omega
  · exact hexDigitChar_ne_43 d

theorem isValidUtf8_of_ascii : ∀ {l : List Nat}, (∀ b ∈ l, b < 128) →
    isValidUtf8 l = true := by
  intro l
  induction l with
  | nil => intro _; rfl
  | cons b t ih =>
    intro h
    unfold isValidUtf8
    simp only [List.length_cons]
    rw [isValidUtf8Fuel, if_pos (h b (List.mem_cons_self b t))]
    exact ih fun x hx => h x (List.mem_cons_of_mem b hx)

theorem parseDigits_fmtHex8 {v : Nat} (h : v < 2 ^ 32) :
    parseDigits (fmtHex8 v) 0 = some v := by
  unfold fmtHex8
  rw [parseDigits_replicate_48]
  have hall : ((hexDigitsBE v).map hexDigitChar).all isHexDigitByte = true := by
    rw [List.all_eq_true]
    intro c hc
    rcases List.mem_map.mp hc with ⟨d, hd, rfl⟩
    exact isHexDigitByte_hexDigitChar d
      (natToHexRev_mem_lt v d (List.mem_reverse.mp hd))
  have hval : ((hexDigitsBE v).map hexDigitChar).foldl hexStep 0 = v := by
    rw [List.foldl_map]
    have hext : ∀ a : Nat, ∀ b ∈ hexDigitsBE v,
        hexStep a (hexDigitChar b) = a * 16 + b := by
      intro a b hb
      unfold hexStep
      rw [hexDigitVal_hexDigitChar b (natToHexRev_mem_lt v b (List.mem_reverse.mp hb))]
    exact (List.foldl_ext _ _ 0 hext).trans (hexValBE_natToHexRev v)
  rw [parseDigits_of_all hall (by rw [hval]; exact h), hval]

theorem fromStrRadix16_fmtHex8 {v : Nat} (h : v < 2 ^ 32) :
    fromStrRadix16 (fmtHex8 v) = some v := by
  have hlen := fmtHex8_length h
  cases hf : fmtHex8 v with
  | nil => rw [hf] at hlen; cases hlen
  | cons c t =>
    have hc : c ≠ 43 := fmtHex8_ne_43 (hf ▸ List.mem_cons_self c t)
    simp only [fromStrRadix16]
    rw [if_neg hc, ← hf]
    exact parseDigits_fmtHex8 h

theorem isValidUtf8_fmtHex8 (v : Nat) : isValidUtf8 (fmtHex8 v) = true :=
  isValidUtf8_of_ascii fmtHex8_lt_128

theorem read_hex_u32_fmtHex8 {v : Nat} (h : v < 2 ^ 32) (rest : List Nat) :
    read_hex_u32 (fmtHex8 v ++ rest) = .ok (v, rest) := by
  unfold read_hex_u32
  rw [readExact_append' _ _ (fmtHex8_length h)]
  rw [except_ok_bind]
  simp only [isValidUtf8_fmtHex8, fromStrRadix16_fmtHex8 h, if_true]

/-! ## Parsing a whole encoded header -/

theorem readExact_magic (et : EntryType) (rest : List Nat) :
    readExact 6 (magicOf et ++ rest) = .ok (magicOf et, rest) := by
  cases et <;> exact readExact_append' _ _ rfl

theorem Reader_new_headerStream (et : EntryType)
    (ino mode uid gid nlink mtime file_size dev_major dev_minor rdev_major
      rdev_minor check : Nat) (nb rest : List Nat)
    (hino : ino < 2 ^ 32) (hmode : mode < 2 ^ 32) (huid : uid < 2 ^ 32)
    (hgid : gid < 2 ^ 32) (hnlink : nlink < 2 ^ 32) (hmtime : mtime < 2 ^ 32)
    (hfsz : file_size < 2 ^ 32) (hdM : dev_major < 2 ^ 32) (hdm : dev_minor < 2 ^ 32)
    (hrM : rdev_major < 2 ^ 32) (hrm : rdev_minor < 2 ^ 32) (hck : check < 2 ^ 32)
    (hnb : nb.length < 2 ^ 32) :
    Reader.new (headerStream et ino mode uid gid nlink mtime file_size dev_major
        dev_minor rdev_major rdev_minor check nb rest) =
      if nb.getLast? ≠ some 0 then .error .invalidFormat
      else if isValidUtf8 (stripTrailingZeros nb.dropLast) = true then
        .ok { inner := rest,
              entry := { entry_type := et, name := stripTrailingZeros nb.dropLast,
                         ino, mode, uid, gid, nlink, mtime, file_size,
                         dev_major, dev_minor, rdev_major, rdev_minor,
                         checksum := check },
              bytes_read := 0 }
      else .error .invalidFormat := by
  have hmagic : ∀ X : List Nat, readExact 6 (magicOf et ++ X) = .ok (magicOf et, X) :=
    readExact_magic et
  have hmatch : magicToType (magicOf et) = .ok et := by cases et <;> rfl
  unfold Reader.new headerStream
  simp only [List.append_assoc]
  rw [hmagic, except_ok_bind]
  simp only [hmatch, pure, Except.pure, except_ok_bind,
    read_hex_u32_fmtHex8 hino, read_hex_u32_fmtHex8 hmode, read_hex_u32_fmtHex8 huid,
    read_hex_u32_fmtHex8 hgid, read_hex_u32_fmtHex8 hnlink, read_hex_u32_fmtHex8 hmtime,
    read_hex_u32_fmtHex8 hfsz, read_hex_u32_fmtHex8 hdM, read_hex_u32_fmtHex8 hdm,
    read_hex_u32_fmtHex8 hrM, read_hex_u32_fmtHex8 hrm,
    read_hex_u32_fmtHex8 hnb, read_hex_u32_fmtHex8 hck,
    readExact_append]
  have hthrow : (throw CpioError.invalidFormat : Except CpioError Reader) =
      Except.error CpioError.invalidFormat := rfl
  by_cases hlast : nb.getLast? = some 0
  · simp only [hlast, ne_eq, not_true_eq_false, if_false]
    by_cases hutf : isValidUtf8 (stripTrailingZeros nb.dropLast) = true
    · simp only [hutf, not_true_eq_false, if_false, if_true]
      cases hp : pad (HEADER_LEN + nb.length) with
      | none =>
        simp only [padList, hp, List.nil_append, except_ok_bind, pure, Except.pure]
      | some p =>
        simp only [padList, hp, readExact_append, except_ok_bind, pure, Except.pure]
    · simp only [hutf, Bool.false_eq_true, not_false_eq_true, if_true, if_false, hthrow]
  · simp only [hlast, ne_eq, not_false_eq_true, if_true, hthrow]

/-! ## The encode pipeline, in closed form -/

theorem into_header_append (b : Builder) (fs : Nat) (ck : Option Nat) (X : List Nat) :
    b.into_header fs ck ++ X =
      headerStream (match ck with | none => .Newc | some _ => .Crc) b.ino b.mode b.uid
        b.gid b.nlink b.mtime fs b.dev_major b.dev_minor b.rdev_major b.rdev_minor
        (ck.getD 0) (b.name ++ [0]) X := by
  unfold Builder.into_header headerStream
  cases ck <;>
    simp [magicOf, List.append_assoc, List.length_append]

theorem try_write_header_eq (w : Writer) :
    w.try_write_header = { w with inner := w.inner ++ w.header, header := [] } := by
  unfold Writer.try_write_header
  by_cases h : w.header = []
  · rw [if_neg fun hc => hc h]
    cases w with
    | mk inner written file_size header_size header =>
      simp only at h
      subst h
      simp
  · rw [if_pos h]

theorem Writer_write_ok (w : Writer) (buf : List Nat) (accepted : Nat)
    (hguard : (w.written + buf.length % 2 ^ 32) % 2 ^ 32 ≤ w.file_size) :
    w.write buf accepted = .ok (accepted,
      { inner := w.inner ++ w.header ++ buf.take accepted,
        written := (w.written + accepted % 2 ^ 32) % 2 ^ 32,
        file_size := w.file_size, header_size := w.header_size, header := [] }) := by
  unfold Writer.write
  rw [if_pos hguard, try_write_header_eq]

theorem Writer_write_err (w : Writer) (buf : List Nat) (accepted : Nat)
    (hguard : ¬ (w.written + buf.length % 2 ^ 32) % 2 ^ 32 ≤ w.file_size) :
    w.write buf accepted = .error .exceedsDeclaredSize := by
  unfold Writer.write
  rw [if_neg hguard]

theorem do_finish_eq (w : Writer) :
    w.do_finish = { w with
      inner := w.inner ++ w.header ++
        (if w.written = w.file_size then padList (w.header_size + w.file_size) else []),
      header := [] } := by
  unfold Writer.do_finish
  rw [try_write_header_eq]
  simp only
  by_cases hw : w.written = w.file_size
  · rw [if_pos hw, if_pos hw]
    cases hp : pad (w.header_size + w.file_size) with
    | none => simp [padList, hp]
    | some p => simp [padList, hp, List.append_assoc]
  · rw [if_neg hw, if_neg hw]
    simp

set_option maxHeartbeats 1000000 in
theorem writeEntryBytes_eq (b : Builder) (ck : Option Nat) (payload : List Nat)
    (hfs : payload.length < 2 ^ 32) :
    writeEntryBytes b ck payload =
      .ok (b.into_header payload.length ck ++ payload ++
        padList ((b.into_header payload.length ck).length + payload.length)) := by
  have hmod : (0 + payload.length % 2 ^ 32) % 2 ^ 32 = payload.length := by
    rw [Nat.mod_eq_of_lt hfs, Nat.zero_add, Nat.mod_eq_of_lt hfs]
  unfold writeEntryBytes
  cases ck with
  | none =>
    simp only [Builder.write]
    rw [Writer_write_ok _ _ _
      (by show (0 + payload.length % 2 ^ 32) % 2 ^ 32 ≤ payload.length; omega)]
    simp only [except_ok_bind, pure, Except.pure, Writer.finish, do_finish_eq]
    simp only [List.nil_append, List.take_length, hmod]
    simp [List.append_assoc]
  | some c =>
    simp only [Builder.write_crc]
    rw [Writer_write_ok _ _ _
      (by show (0 + payload.length % 2 ^ 32) % 2 ^ 32 ≤ payload.length; omega)]
    simp only [except_ok_bind, pure, Except.pure, Writer.finish, do_finish_eq]
    simp only [List.nil_append, List.take_length, hmod]
    simp [List.append_assoc]

/-! ## Reading the payload back -/

theorem Reader_read_drained (r : Reader) (h : r.entry.file_size ≤ r.bytes_read)
    (bufLen : Nat) : r.read bufLen = (0, [], r) := by
  unfold Reader.read
  rw [Nat.sub_eq_zero_of_le h]
  simp

theorem readAllAux_drained (f : Nat) (r : Reader)
    (h : r.entry.file_size ≤ r.bytes_read) :
    Reader.readAllAux f r = ([], r) := by
  cases f with
  | zero => rfl
  | succ f =>
    rw [Reader.readAllAux, Reader_read_drained r h]
    simp

theorem Reader_read_full (e : Entry) (payload extra : List Nat)
    (hfs : e.file_size = payload.length) (h0 : payload ≠ []) :
    Reader.read { inner := payload ++ extra, entry := e, bytes_read := 0 }
        e.file_size =
      (payload.length, payload,
        { inner := extra, entry := e, bytes_read := payload.length }) := by
  unfold Reader.read
  simp only [Nat.sub_zero, hfs, Nat.min_self]
  rw [if_pos (by cases payload with
    | nil => exact absurd rfl h0
    | cons a l => simp)]
  simp [List.take_left, List.drop_left]

theorem readAll_exact (e : Entry) (payload extra : List Nat)
    (hfs : e.file_size = payload.length) :
    (Reader.readAll { inner := payload ++ extra, entry := e, bytes_read := 0 }).1 =
      payload := by
  unfold Reader.readAll
  rw [Reader.readAllAux]
  simp only [Nat.sub_zero]
  by_cases h0 : payload = []
  · subst h0
    rw [Reader_read_drained _ (by simp [hfs])]
    simp
  · rw [Reader_read_full e payload extra hfs h0]
    simp only [List.length_eq_zero]  -- aligns the n = 0 test with payload = []
    rw [if_neg h0]
    rw [readAllAux_drained _ _ (by simp [hfs])]
    simp

/-! ## The decoded result of one encoded entry -/

/-- Decoding the bytes `writeEntryBytes` produces yields the `Reader` below:
the name comes back with its trailing NUL bytes stripped, every other field
comes back unchanged, and the payload plus final alignment padding is left in
the stream. -/
theorem Reader_new_writeEntryBytes (b : Builder) (ck : Option Nat)
    (payload : List Nat) (hwf : b.wf)
    (hck : ∀ c, ck = some c → c < 2 ^ 32) (hlen : payload.length < 2 ^ 32)
    (hutf : isValidUtf8 (stripTrailingZeros b.name) = true) :
    Reader.new (b.into_header payload.length ck ++ payload ++
        padList ((b.into_header payload.length ck).length + payload.length)) = .ok
      { inner := payload ++
          padList ((b.into_header payload.length ck).length + payload.length),
        entry := { entry_type := match ck with | none => .Newc | some _ => .Crc,
                   name := stripTrailingZeros b.name,
                   ino := b.ino, mode := b.mode, uid := b.uid, gid := b.gid,
                   nlink := b.nlink, mtime := b.mtime, file_size := payload.length,
                   dev_major := b.dev_major, dev_minor := b.dev_minor,
                   rdev_major := b.rdev_major, rdev_minor := b.rdev_minor,
                   checksum := ck.getD 0 },
        bytes_read := 0 } := by
  obtain ⟨hino, hmode, huid, hgid, hnlink, hmtime, hdM, hdm, hrM, hrm, hnl, _⟩ := hwf
  have hck' : ck.getD 0 < 2 ^ 32 := by
    cases ck with
    | none => norm_num
    | some c => exact hck c rfl
  have hnb_len : (b.name ++ [0]).length < 2 ^ 32 := by simpa using hnl
  rw [List.append_assoc, into_header_append]
  rw [Reader_new_headerStream _ _ _ _ _ _ _ _ _ _ _ _ _ _ _
    hino hmode huid hgid hnlink hmtime hlen hdM hdm hrM hrm hck' hnb_len]
  simp only [List.getLast?_concat, List.dropLast_concat, ne_eq, not_true_eq_false,
    if_false, hutf, if_true]

/-! ## Characterising the eight-byte field decoder -/

theorem hexDigitVal_lt_16 {b : Nat} (h : isHexDigitByte b = true) :
    hexDigitVal b < 16 := by
  rw [isHexDigitByte_iff] at h
  unfold hexDigitVal
  rcases h with ⟨h1, h2⟩ | ⟨h1, h2⟩ | ⟨h1, h2⟩ <;> (repeat' split) <;> omega

theorem hexByte_lt_128 {b : Nat} (h : isHexDigitByte b = true) : b < 128 := by
  rw [isHexDigitByte_iff] at h
  rcases h with ⟨h1, h2⟩ | ⟨h1, h2⟩ | ⟨h1, h2⟩ <;> omega

theorem hexByte_ne_43 {b : Nat} (h : isHexDigitByte b = true) : b ≠ 43 := by
  rw [isHexDigitByte_iff] at h
  rcases h with ⟨h1, h2⟩ | ⟨h1, h2⟩ | ⟨h1, h2⟩ <;> omega

theorem hexListVal_lt (l : List Nat) (hall : l.all isHexDigitByte = true) :
    hexListVal l < 16 ^ l.length := by
  unfold hexListVal
  induction l with
  | nil => simp
  | cons c t ih =>
    simp only [List.all_cons, Bool.and_eq_true] at hall
    obtain ⟨hc, ht⟩ := hall
    simp only [List.foldl_cons, List.length_cons]
    rw [foldl_hexStep_acc]
    have h1 : hexStep 0 c < 16 := by
      have := hexDigitVal_lt_16 hc
      unfold hexStep
      omega
    have h2 := ih ht
    calc hexStep 0 c * 16 ^ t.length + t.foldl hexStep 0
        ≤ 15 * 16 ^ t.length + t.foldl hexStep 0 := by
          have : hexStep 0 c ≤ 15 := by omega
          exact Nat.add_le_add_right (Nat.mul_le_mul_right _ this) _
      _ < 15 * 16 ^ t.length + 16 ^ t.length := by omega
      _ = 16 ^ (t.length + 1) := by ring

theorem parseDigits_eq_none {l : List Nat} (acc : Nat)
    (h : ¬ l.all isHexDigitByte = true) : parseDigits l acc = none := by
  cases hp : parseDigits l acc with
  | none => rfl
  | some v => exact absurd (parseDigits_all_of_ok hp) h

theorem fromStrRadix16_of_all {bs : List Nat} (h0 : bs ≠ [])
    (hall : bs.all isHexDigitByte = true) (hlen : bs.length ≤ 8) :
    fromStrRadix16 bs = some (hexListVal bs) := by
  cases bs with
  | nil => exact absurd rfl h0
  | cons c t =>
    have hc : isHexDigitByte c = true := by
      simp only [List.all_cons, Bool.and_eq_true] at hall
      exact hall.1
    simp only [fromStrRadix16]
    rw [if_neg (hexByte_ne_43 hc)]
    have hbound : (c :: t).foldl hexStep 0 < 2 ^ 32 := by
      calc (c :: t).foldl hexStep 0 < 16 ^ (c :: t).length := hexListVal_lt _ hall
        _ ≤ 16 ^ 8 := Nat.pow_le_pow_right (by norm_num) hlen
        _ = 2 ^ 32 := by norm_num
    exact parseDigits_of_all hall hbound

theorem isValidUtf8_of_all_hex {bs : List Nat} (hall : bs.all isHexDigitByte = true) :
    isValidUtf8 bs = true := by
  apply isValidUtf8_of_ascii
  intro b hb
  exact hexByte_lt_128 (by rw [List.all_eq_true] at hall; exact hall b hb)

/-! ## Generic `Except` plumbing for the invariant proof -/

theorem except_bind_ok_iff {ε α β : Type} {e : Except ε α} {f : α → Except ε β}
    {b : β} : (e >>= f) = .ok b ↔ ∃ a, e = .ok a ∧ f a = .ok b := by
  cases e with
  | error x =>
    rw [except_error_bind]
    simp
  | ok a =>
    rw [except_ok_bind]
    simp

theorem Reader_new_bytes_read {bs : List Nat} {r0 : Reader}
    (h : Reader.new bs = .ok r0) : r0.bytes_read = 0 := by
  unfold Reader.new at h
  simp only [bind, Except.bind, pure, Except.pure] at h
  repeat' split at h
  all_goals
    first
    | exact Except.noConfusion h
    | (injection h with h; rw [← h])

/-! ## Claim theorems -/

/-- **C1 (counterexample).** The round-trip claim fails as stated: for the
builder whose name is the single NUL byte (a legal Rust `String`), declared
size 0 and empty payload, encode-then-decode succeeds but returns the empty
name — the decoder's trailing-NUL stripping removed the name's own NUL — so
the decoded metadata does not equal the supplied metadata. -/
theorem c1_roundtrip_counterexample :
    ∃ out r, writeEntryBytes (Builder.new [0]) none [] = .ok out ∧
      Reader.new out = .ok r ∧ r.entry.name ≠ (Builder.new [0]).name := by
  have hnew := Reader_new_writeEntryBytes (Builder.new [0]) none [] (by decide)
    (by intro c hc; cases hc) (by norm_num) (by decide)
  exact ⟨_, _, writeEntryBytes_eq _ none [] (by norm_num), hnew, by decide⟩

/-- **C1 (amended).** For every Builder configuration with `u32` fields, a
UTF-8 name that does not end in a NUL byte and whose namesize fits the header
field, every checksum option and every payload whose length fits in `u32`:
encoding via `Builder::write`/`write_crc` with declared size equal to the
payload length, writing the payload, finishing, then decoding with
`Reader::new` and reading to exhaustion returns every metadata field as
supplied, `checksum()` as `None` for `write` and `Some` of the supplied value
for `write_crc`, and exactly the original payload bytes — for any name length
and any payload length including zero. -/
theorem c1_roundtrip (b : Builder) (ck : Option Nat) (payload : List Nat)
    (hwf : b.wf) (hck : ∀ c, ck = some c → c < 2 ^ 32)
    (hlen : payload.length < 2 ^ 32) (hname : b.name.getLast? ≠ some 0) :
    ∃ out r, writeEntryBytes b ck payload = .ok out ∧ Reader.new out = .ok r ∧
      r.entry.name = b.name ∧ r.entry.ino = b.ino ∧ r.entry.mode = b.mode ∧
      r.entry.uid = b.uid ∧ r.entry.gid = b.gid ∧ r.entry.nlink = b.nlink ∧
      r.entry.mtime = b.mtime ∧ r.entry.file_size = payload.length ∧
      r.entry.dev_major = b.dev_major ∧ r.entry.dev_minor = b.dev_minor ∧
      r.entry.rdev_major = b.rdev_major ∧ r.entry.rdev_minor = b.rdev_minor ∧
      r.entry.checksum_opt = ck ∧ r.readAll.1 = payload := by
  have hstrip : stripTrailingZeros b.name = b.name :=
    stripTrailingZeros_of_getLast? hname
  have hutf : isValidUtf8 (stripTrailingZeros b.name) = true := by
    rw [hstrip]
    exact hwf.2.2.2.2.2.2.2.2.2.2.2
  have hnew := Reader_new_writeEntryBytes b ck payload hwf hck hlen hutf
  rw [hstrip] at hnew
  refine ⟨_, _, writeEntryBytes_eq b ck payload hlen, hnew, rfl, rfl, rfl, rfl, rfl,
    rfl, rfl, rfl, rfl, rfl, rfl, rfl, ?_, ?_⟩
  · cases ck <;> rfl
  · exact readAll_exact _ _ _ rfl

/-- **C1 (witness).** The amended round trip at a concrete input: name `"a"`,
no checksum, payload `"hi"`. -/
theorem c1_roundtrip_witness :
    ((Builder.new [97]).wf ∧ (∀ c, (none : Option Nat) = some c → c < 2 ^ 32) ∧
      ([104, 105] : List Nat).length < 2 ^ 32 ∧
      (Builder.new [97]).name.getLast? ≠ some 0) ∧
    (∃ out r, writeEntryBytes (Builder.new [97]) none [104, 105] = .ok out ∧
      Reader.new out = .ok r ∧
      r.entry.name = (Builder.new [97]).name ∧
      r.entry.ino = (Builder.new [97]).ino ∧
      r.entry.mode = (Builder.new [97]).mode ∧
      r.entry.uid = (Builder.new [97]).uid ∧
      r.entry.gid = (Builder.new [97]).gid ∧
      r.entry.nlink = (Builder.new [97]).nlink ∧
      r.entry.mtime = (Builder.new [97]).mtime ∧
      r.entry.file_size = ([104, 105] : List Nat).length ∧
      r.entry.dev_major = (Builder.new [97]).dev_major ∧
      r.entry.dev_minor = (Builder.new [97]).dev_minor ∧
      r.entry.rdev_major = (Builder.new [97]).rdev_major ∧
      r.entry.rdev_minor = (Builder.new [97]).rdev_minor ∧
      r.entry.checksum_opt = none ∧ r.readAll.1 = [104, 105]) := by
  refine ⟨⟨?_, ?_, ?_, ?_⟩, ?_⟩
  · decide
  · intro c hc; cases hc
  · norm_num
  · decide
  · exact c1_roundtrip (Builder.new [97]) none [104, 105] (by decide)
      (by intro c hc; cases hc) (by norm_num) (by decide)

/-- **C2 (counterexample).** The claim's guard `written + len(buf) > file_size`
is computed in exact arithmetic, but the code casts `buf.len()` to `u32` first:
on a fresh writer with declared size 0, a buffer of `2^32` bytes has
`written + len(buf) > file_size`, so the claim demands the
`ExceedsDeclaredSize` failure — yet `write` succeeds, because the cast length
is 0. -/
theorem c2_write_counterexample :
    (List.replicate (2 ^ 32) (0 : Nat)).length = 2 ^ 32 ∧
    (Writer.mk [] 0 0 112 [7]).written = 0 ∧
    (Writer.mk [] 0 0 112 [7]).file_size = 0 ∧
    (0 : Nat) + 2 ^ 32 > 0 ∧
    ∃ n w', Writer.write (Writer.mk [] 0 0 112 [7])
      (List.replicate (2 ^ 32) 0) (2 ^ 32) = .ok (n, w') := by
  refine ⟨List.length_replicate _ _, rfl, rfl, by omega, ?_⟩
  refine ⟨_, _, Writer_write_ok _ _ _ ?_⟩
  rw [List.length_replicate, Nat.mod_self]
  decide

/-- **C2 (amended).** `Writer::write` fails with `ExceedsDeclaredSize` exactly
when `(written + (len(buf) mod 2^32)) mod 2^32 > file_size` — the guard the
release code computes in wrapping `u32` arithmetic; otherwise it flushes the
still-pending header bytes (leaving the header buffer empty, so only the first
such call emits them), forwards `buf` to the underlying stream, advances
`written` by the accepted count (again as a wrapping `u32`), and returns that
count.  `accepted` is the byte count the underlying sink reports. -/
theorem c2_write_spec (w : Writer) (buf : List Nat) (accepted : Nat)
    (_hacc : accepted ≤ buf.length) :
    (¬ (w.written + buf.length % 2 ^ 32) % 2 ^ 32 ≤ w.file_size →
      w.write buf accepted = .error .exceedsDeclaredSize) ∧
    ((w.written + buf.length % 2 ^ 32) % 2 ^ 32 ≤ w.file_size →
      w.write buf accepted = .ok (accepted,
        { inner := w.inner ++ w.header ++ buf.take accepted,
          written := (w.written + accepted % 2 ^ 32) % 2 ^ 32,
          file_size := w.file_size, header_size := w.header_size, header := [] })) :=
  ⟨Writer_write_err w buf accepted, Writer_write_ok w buf accepted⟩

/-- **C2 (witness).** The amended write specification at a concrete state:
a writer with declared size 5, empty sink, pending header `[7, 7]`, accepting
the 3-byte buffer `[1, 2, 3]` in full. -/
theorem c2_write_spec_witness :
    (3 ≤ ([1, 2, 3] : List Nat).length) ∧
    ((¬ (0 + ([1, 2, 3] : List Nat).length % 2 ^ 32) % 2 ^ 32 ≤ 5 →
        Writer.write (Writer.mk [] 0 5 0 [7, 7]) [1, 2, 3] 3 =
          .error .exceedsDeclaredSize) ∧
      ((0 + ([1, 2, 3] : List Nat).length % 2 ^ 32) % 2 ^ 32 ≤ 5 →
        Writer.write (Writer.mk [] 0 5 0 [7, 7]) [1, 2, 3] 3 = .ok (3,
          Writer.mk ([] ++ [7, 7] ++ ([1, 2, 3] : List Nat).take 3)
            ((0 + 3 % 2 ^ 32) % 2 ^ 32) 5 0 []))) :=
  ⟨by norm_num, c2_write_spec (Writer.mk [] 0 5 0 [7, 7]) [1, 2, 3] 3 (by norm_num)⟩

theorem drop_append_length {α : Type} (l₁ l₂ : List α) {n : Nat}
    (h : l₁.length = n) : (l₁ ++ l₂).drop n = l₂ := by
  subst h
  exact List.drop_left l₁ l₂

theorem into_header_len_drop (b : Builder) (fs : Nat) (ck : Option Nat)
    (hwf : b.wf) (hfs : fs < 2 ^ 32) (hckb : ck.getD 0 < 2 ^ 32) :
    (b.into_header fs ck).length =
      HEADER_LEN + (b.name.length + 1) +
        (4 - (HEADER_LEN + (b.name.length + 1)) % 4) % 4 ∧
    (b.into_header fs ck).drop (HEADER_LEN + (b.name.length + 1)) =
      List.replicate ((4 - (HEADER_LEN + (b.name.length + 1)) % 4) % 4) 0 := by
  obtain ⟨hino, hmode, huid, hgid, hnlink, hmtime, hdM, hdm, hrM, hrm, hnl, _⟩ := hwf
  have hns : b.name.length + 1 < 2 ^ 32 := hnl
  have hmagic :
      (if ck.isSome then MAGIC_NUMBER_NEWCRC else MAGIC_NUMBER_NEWASCII).length = 6 := by
    cases ck <;> rfl
  unfold Builder.into_header
  constructor
  · simp only [List.length_append, hmagic, fmtHex8_length hino, fmtHex8_length hmode,
      fmtHex8_length huid, fmtHex8_length hgid, fmtHex8_length hnlink,
      fmtHex8_length hmtime, fmtHex8_length hfs, fmtHex8_length hdM,
      fmtHex8_length hdm, fmtHex8_length hrM, fmtHex8_length hrm,
      fmtHex8_length hns, fmtHex8_length hckb, padList_length, List.length_cons,
      List.length_nil, HEADER_LEN]
    omega
  · refine (drop_append_length _ _ ?_).trans (padList_eq _)
    simp only [List.length_append, hmagic, fmtHex8_length hino, fmtHex8_length hmode,
      fmtHex8_length huid, fmtHex8_length hgid, fmtHex8_length hnlink,
      fmtHex8_length hmtime, fmtHex8_length hfs, fmtHex8_length hdM,
      fmtHex8_length hdm, fmtHex8_length hrM, fmtHex8_length hrm,
      fmtHex8_length hns, fmtHex8_length hckb, List.length_cons, List.length_nil,
      HEADER_LEN]
    omega

/-- **C3.** Both padding laws of the wire format.  For every well-formed
builder: the header emitted by `into_header` is the 110 fixed bytes, the
NUL-terminated name (`namesize = name length + 1`), and then exactly
`(4 - L % 4) % 4` bytes where `L = 110 + namesize`, all of them zero.  And for
every `Writer` whose declared size has been fully written, `do_finish` appends
exactly `(4 - M % 4) % 4` zero bytes after the (possibly just-flushed) header,
where `M = header_size + file_size` is the header-plus-payload length measured
from the start of the header. -/
theorem c3_padding (b : Builder) (fs : Nat) (ck : Option Nat) (w : Writer)
    (hwf : b.wf) (hfs : fs < 2 ^ 32) (hckb : ck.getD 0 < 2 ^ 32)
    (hw : w.written = w.file_size) :
    ((b.into_header fs ck).length =
        HEADER_LEN + (b.name.length + 1) +
          (4 - (HEADER_LEN + (b.name.length + 1)) % 4) % 4 ∧
      (b.into_header fs ck).drop (HEADER_LEN + (b.name.length + 1)) =
        List.replicate ((4 - (HEADER_LEN + (b.name.length + 1)) % 4) % 4) 0) ∧
    w.do_finish.inner = w.inner ++ w.header ++
      List.replicate ((4 - (w.header_size + w.file_size) % 4) % 4) 0 := by
  refine ⟨into_header_len_drop b fs ck hwf hfs hckb, ?_⟩
  rw [do_finish_eq]
  simp only
  rw [if_pos hw, padList_eq]

/-- **C3 (witness).** The padding laws at a concrete input: builder named
`"a"`, declared size 3, no checksum, and a writer with `header_size = 113`,
`file_size = written = 5`. -/
theorem c3_padding_witness :
    ((Builder.new [97]).wf ∧ (3 : Nat) < 2 ^ 32 ∧
      ((none : Option Nat).getD 0) < 2 ^ 32 ∧
      (Writer.mk [6] 5 5 113 [9]).written = (Writer.mk [6] 5 5 113 [9]).file_size) ∧
    ((((Builder.new [97]).into_header 3 none).length =
        HEADER_LEN + ((Builder.new [97]).name.length + 1) +
          (4 - (HEADER_LEN + ((Builder.new [97]).name.length + 1)) % 4) % 4 ∧
      ((Builder.new [97]).into_header 3 none).drop
          (HEADER_LEN + ((Builder.new [97]).name.length + 1)) =
        List.replicate
          ((4 - (HEADER_LEN + ((Builder.new [97]).name.length + 1)) % 4) % 4) 0) ∧
    (Writer.mk [6] 5 5 113 [9]).do_finish.inner =
      (Writer.mk [6] 5 5 113 [9]).inner ++ (Writer.mk [6] 5 5 113 [9]).header ++
        List.replicate ((4 - ((Writer.mk [6] 5 5 113 [9]).header_size +
          (Writer.mk [6] 5 5 113 [9]).file_size) % 4) % 4) 0) := by
  refine ⟨⟨?_, ?_, ?_, ?_⟩, ?_⟩
  · decide
  · norm_num
  · norm_num
  · rfl
  · exact c3_padding (Builder.new [97]) 3 none (Writer.mk [6] 5 5 113 [9])
      (by decide) (by norm_num) (by norm_num) rfl

/-- **C4 (counterexample).** The field decoder does not succeed only on pure
hex-digit fields: `u32::from_str_radix` accepts one leading `'+'`, so the
8-byte field `"+0000001"` decodes successfully to 1 although its first byte is
not a hex digit. -/
theorem c4_counterexample :
    read_hex_u32 [43, 48, 48, 48, 48, 48, 48, 49] = .ok (1, []) ∧
    ¬ ([43, 48, 48, 48, 48, 48, 48, 49] : List Nat).all isHexDigitByte = true := by
  exact ⟨rfl, by decide⟩

/-- **C4 (amended).** For every 8-byte field followed by the rest of the
stream: the decoder either succeeds returning the value denoted by the digit
part, or fails with `InvalidFormat`; and it succeeds exactly when the 8 bytes
are all ASCII hex digits, or the first byte is `'+'` and the remaining seven
are hex digits (the leading plus sign `u32::from_str_radix` accepts, stripped
from the digit part). -/
theorem c4_field_decoder (bs rest : List Nat) (hlen : bs.length = 8) :
    (read_hex_u32 (bs ++ rest) = .ok (hexFieldVal bs, rest) ∨
      read_hex_u32 (bs ++ rest) = .error .invalidFormat) ∧
    ((∃ v tail, read_hex_u32 (bs ++ rest) = .ok (v, tail)) ↔ hexFieldOk bs = true) := by
  have hre : readExact 8 (bs ++ rest) = .ok (bs, rest) := readExact_append' bs rest hlen
  by_cases hok : hexFieldOk bs = true
  · -- the decoder succeeds with the denoted value
    have hmain : isValidUtf8 bs = true ∧ fromStrRadix16 bs = some (hexFieldVal bs) := by
      unfold hexFieldOk at hok
      rw [Bool.or_eq_true] at hok
      cases bs with
      | nil => cases hlen
      | cons c t =>
        rcases hok with hall | hplus
        · have hc : isHexDigitByte c = true := by
            simp only [List.all_cons, Bool.and_eq_true] at hall
            exact hall.1
          have hvt : hexFieldVal (c :: t) = hexListVal (c :: t) := by
            unfold hexFieldVal
            rw [if_neg (by
              simp only [List.head?, beq_iff_eq, Option.some.injEq]
              exact hexByte_ne_43 hc)]
          refine ⟨isValidUtf8_of_all_hex hall, ?_⟩
          rw [hvt]
          exact fromStrRadix16_of_all (by simp) hall (by rw [hlen])
        · rw [Bool.and_eq_true] at hplus
          obtain ⟨hhead, htail⟩ := hplus
          have hc : c = 43 := by
            simp only [List.head?, beq_iff_eq, Option.some.injEq] at hhead
            exact hhead
          subst hc
          simp only [List.tail_cons] at htail
          have htne : t ≠ [] := by
            intro h0
            rw [h0] at hlen
            cases hlen
          have hbound : t.foldl hexStep 0 < 2 ^ 32 := by
            calc t.foldl hexStep 0 < 16 ^ t.length := hexListVal_lt t htail
              _ ≤ 16 ^ 8 := Nat.pow_le_pow_right (by norm_num)
                (by simp only [List.length_cons] at hlen; omega)
              _ = 2 ^ 32 := by norm_num
          have hvt : hexFieldVal (43 :: t) = hexListVal t := by
            unfold hexFieldVal
            rw [if_pos (by simp [List.head?])]
            rfl
          constructor
          · apply isValidUtf8_of_ascii
            intro x hx
            rcases List.mem_cons.mp hx with h | h
            · omega
            · exact hexByte_lt_128 (by rw [List.all_eq_true] at htail; exact htail x h)
          · simp only [fromStrRadix16, if_true]
            rw [if_neg htne, hvt]
            exact parseDigits_of_all htail hbound
    have hrun : read_hex_u32 (bs ++ rest) = .ok (hexFieldVal bs, rest) := by
      unfold read_hex_u32
      rw [hre, except_ok_bind]
      simp only [hmain.1, if_true, hmain.2]
    exact ⟨Or.inl hrun, by
      constructor
      · intro _; exact hok
      · intro _; exact ⟨_, _, hrun⟩⟩
  · -- the decoder fails with InvalidFormat
    have hnone : fromStrRadix16 bs = none := by
      unfold hexFieldOk at hok
      rw [Bool.or_eq_true] at hok
      push_neg at hok
      obtain ⟨hnall, hnplus⟩ := hok
      cases bs with
      | nil => cases hlen
      | cons c t =>
        simp only [fromStrRadix16]
        by_cases hc : c = 43
        · subst hc
          rw [if_pos rfl]
          have htne : t ≠ [] := by
            intro h0
            rw [h0] at hlen
            cases hlen
          rw [if_neg htne]
          apply parseDigits_eq_none
          intro hall
          exact hnplus (by simp [List.head?, hall])
        · rw [if_neg hc]
          apply parseDigits_eq_none
          intro hall
          exact hnall hall
    have hrun : read_hex_u32 (bs ++ rest) = .error .invalidFormat := by
      unfold read_hex_u32
      rw [hre, except_ok_bind]
      by_cases hu : isValidUtf8 bs = true
      · simp only [hu, if_true, hnone]
      · simp only [Bool.not_eq_true] at hu
        simp only [hu, Bool.false_eq_true, if_false]
    refine ⟨Or.inr hrun, ?_, ?_⟩
    · rintro ⟨v, tail, hv⟩
      rw [hrun] at hv
      cases hv
    · intro h
      exact absurd h hok

/-- **C4 (witness).** The amended field-decoder characterisation at the
concrete field `"000000Ff"` (mixed-case hex digits, value 255). -/
theorem c4_field_decoder_witness :
    (([48, 48, 48, 48, 48, 48, 70, 102] : List Nat).length = 8) ∧
    ((read_hex_u32 ([48, 48, 48, 48, 48, 48, 70, 102] ++ [1, 2]) =
        .ok (hexFieldVal [48, 48, 48, 48, 48, 48, 70, 102], [1, 2]) ∨
      read_hex_u32 ([48, 48, 48, 48, 48, 48, 70, 102] ++ [1, 2]) =
        .error .invalidFormat) ∧
    ((∃ v tail, read_hex_u32 ([48, 48, 48, 48, 48, 48, 70, 102] ++ [1, 2]) =
        .ok (v, tail)) ↔
      hexFieldOk [48, 48, 48, 48, 48, 48, 70, 102] = true)) :=
  ⟨rfl, c4_field_decoder [48, 48, 48, 48, 48, 48, 70, 102] [1, 2] rfl⟩

/-- **C5.** Name-field handling of `Reader::new`, for every well-formed header
whose namesize equals the length of the raw name field `nb`: if the last byte
of the field is not NUL the decode fails with `InvalidFormat`; otherwise the
trailing NUL and all additional trailing NUL bytes are stripped, and if the
remaining bytes are not valid UTF-8 the decode fails with `InvalidFormat`,
else the remaining bytes become the entry's name. -/
theorem c5_name_validation (ino mode uid gid nlink mtime file_size dev_major
    dev_minor rdev_major rdev_minor check : Nat) (nb rest : List Nat)
    (h1 : ino < 2 ^ 32) (h2 : mode < 2 ^ 32) (h3 : uid < 2 ^ 32) (h4 : gid < 2 ^ 32)
    (h5 : nlink < 2 ^ 32) (h6 : mtime < 2 ^ 32) (h7 : file_size < 2 ^ 32)
    (h8 : dev_major < 2 ^ 32) (h9 : dev_minor < 2 ^ 32) (h10 : rdev_major < 2 ^ 32)
    (h11 : rdev_minor < 2 ^ 32) (h12 : check < 2 ^ 32) (hnb : nb.length < 2 ^ 32) :
    (nb.getLast? ≠ some 0 →
      Reader.new (headerStream .Newc ino mode uid gid nlink mtime file_size
        dev_major dev_minor rdev_major rdev_minor check nb rest) =
        .error .invalidFormat) ∧
    (nb.getLast? = some 0 → isValidUtf8 (stripTrailingZeros nb.dropLast) = false →
      Reader.new (headerStream .Newc ino mode uid gid nlink mtime file_size
        dev_major dev_minor rdev_major rdev_minor check nb rest) =
        .error .invalidFormat) ∧
    (nb.getLast? = some 0 → isValidUtf8 (stripTrailingZeros nb.dropLast) = true →
      ∃ r, Reader.new (headerStream .Newc ino mode uid gid nlink mtime file_size
        dev_major dev_minor rdev_major rdev_minor check nb rest) = .ok r ∧
        r.entry.name = stripTrailingZeros nb.dropLast) := by
  rw [Reader_new_headerStream _ _ _ _ _ _ _ _ _ _ _ _ _ _ _
    h1 h2 h3 h4 h5 h6 h7 h8 h9 h10 h11 h12 hnb]
  refine ⟨?_, ?_, ?_⟩
  · intro h
    rw [if_pos h]
  · intro h hu
    rw [if_neg (by simp [h]), if_neg (by simp [hu])]
  · intro h hu
    rw [if_neg (by simp [h]), if_pos hu]
    exact ⟨_, rfl, rfl⟩

/-- **C5 (witness).** The name-field law at a concrete header: all metadata
fields 0, raw name field `[65, 0, 0]` (`"A"` over-padded with an extra NUL),
so the decoded name is `[65]`. -/
theorem c5_name_validation_witness :
    (([65, 0, 0] : List Nat).length < 2 ^ 32) ∧
    ((([65, 0, 0] : List Nat).getLast? ≠ some 0 →
      Reader.new (headerStream .Newc 0 0 0 0 0 0 0 0 0 0 0 0 [65, 0, 0] [5]) =
        .error .invalidFormat) ∧
    (([65, 0, 0] : List Nat).getLast? = some 0 →
      isValidUtf8 (stripTrailingZeros ([65, 0, 0] : List Nat).dropLast) = false →
      Reader.new (headerStream .Newc 0 0 0 0 0 0 0 0 0 0 0 0 [65, 0, 0] [5]) =
        .error .invalidFormat) ∧
    (([65, 0, 0] : List Nat).getLast? = some 0 →
      isValidUtf8 (stripTrailingZeros ([65, 0, 0] : List Nat).dropLast) = true →
      ∃ r, Reader.new (headerStream .Newc 0 0 0 0 0 0 0 0 0 0 0 0 [65, 0, 0] [5]) =
        .ok r ∧ r.entry.name = stripTrailingZeros ([65, 0, 0] : List Nat).dropLast)) :=
  ⟨by norm_num,
    c5_name_validation 0 0 0 0 0 0 0 0 0 0 0 0 [65, 0, 0] [5]
      (by norm_num) (by norm_num) (by norm_num) (by norm_num) (by norm_num)
      (by norm_num) (by norm_num) (by norm_num) (by norm_num) (by norm_num)
      (by norm_num) (by norm_num) (by norm_num)⟩

/-- **C6.** The `Read` implementation never reads past the declared size: once
`bytes_read` has reached `file_size`, `read` returns `Ok(0)` with the state —
in particular the underlying stream — unchanged, for every buffer and whatever
the stream still contains; and while `bytes_read < file_size` a read returns
at most `file_size - bytes_read` bytes and consumes exactly that count from
the stream, so a caller can never read into the next entry's header. -/
theorem c6_read_capped (r : Reader) (bufLen : Nat) :
    (r.bytes_read = r.entry.file_size → r.read bufLen = (0, [], r)) ∧
    (r.bytes_read < r.entry.file_size →
      (r.read bufLen).1 ≤ r.entry.file_size - r.bytes_read ∧
      (r.read bufLen).2.2.inner = r.inner.drop (r.read bufLen).1) := by
  constructor
  · intro h
    exact Reader_read_drained r (le_of_eq h.symm) bufLen
  · intro _h
    unfold Reader.read
    by_cases hl : 0 < min bufLen (r.entry.file_size - r.bytes_read)
    · simp only [if_pos hl]
      refine ⟨?_, trivial⟩
      simp only [List.length_take]
      omega
    · simp only [if_neg hl]
      exact ⟨by omega, by simp⟩

/-- **C6 (witness).** The read cap at a concrete drained reader (2 of 2
declared bytes already read, two more bytes still in the stream): `read`
returns `Ok(0)` and leaves the state untouched. -/
theorem c6_read_capped_witness :
    ((Reader.mk [9, 9] (Entry.mk .Newc [65] 0 0 0 0 1 0 2 0 0 0 0 0) 2).bytes_read =
      (Reader.mk [9, 9] (Entry.mk .Newc [65] 0 0 0 0 1 0 2 0 0 0 0 0) 2).entry.file_size) ∧
    (Reader.mk [9, 9] (Entry.mk .Newc [65] 0 0 0 0 1 0 2 0 0 0 0 0) 2).read 4 =
      (0, [], Reader.mk [9, 9] (Entry.mk .Newc [65] 0 0 0 0 1 0 2 0 0 0 0 0) 2) :=
  ⟨rfl,
    (c6_read_capped (Reader.mk [9, 9] (Entry.mk .Newc [65] 0 0 0 0 1 0 2 0 0 0 0 0) 2)
      4).1 rfl⟩

/-- **C7.** Calling `finish` on a `Writer` whose declared size has not been
met returns the sink without error: the pending header bytes are flushed
(a no-op if already flushed) and no alignment padding is emitted.  (The list
sink never fails, so `finish` is total here; the only effect the claim
describes is the missing padding.) -/
theorem c7_finish_partial (w : Writer) (h : w.written < w.file_size) :
    w.finish = w.inner ++ w.header := by
  unfold Writer.finish
  rw [do_finish_eq]
  simp [Nat.ne_of_lt h]

/-- **C7 (witness).** `finish` on a writer with 0 of 5 declared bytes written:
the sink receives only the pending header bytes. -/
theorem c7_finish_partial_witness :
    (Writer.mk [3] 0 5 0 [9]).written < (Writer.mk [3] 0 5 0 [9]).file_size ∧
    (Writer.mk [3] 0 5 0 [9]).finish =
      (Writer.mk [3] 0 5 0 [9]).inner ++ (Writer.mk [3] 0 5 0 [9]).header :=
  ⟨by decide, c7_finish_partial (Writer.mk [3] 0 5 0 [9]) (by decide)⟩

/-- **C8.** `is_trailer()` holds exactly when the entry's name is the literal
`"TRAILER!!!"`, and it depends on no other field: any two entries with the
same name agree on `is_trailer`, whatever their sizes, link counts, modes or
checksum variants. -/
theorem c8_is_trailer_iff (e₁ e₂ : Entry) :
    (e₁.is_trailer = true ↔ e₁.name = TRAILER_NAME) ∧
    (e₁.name = e₂.name → e₁.is_trailer = e₂.is_trailer) := by
  constructor
  · unfold Entry.is_trailer
    exact beq_iff_eq
  · intro h
    unfold Entry.is_trailer
    rw [h]

/-- **C8 (witness).** Two entries named `TRAILER!!!` that differ in every
other metadata field: both are trailers. -/
theorem c8_is_trailer_iff_witness :
    ((Entry.mk .Newc TRAILER_NAME 1 2 3 4 5 6 7 8 9 10 11 12).name =
      (Entry.mk .Crc TRAILER_NAME 0 0 0 0 0 0 0 0 0 0 0 0).name) ∧
    ((Entry.mk .Newc TRAILER_NAME 1 2 3 4 5 6 7 8 9 10 11 12).is_trailer = true ↔
      (Entry.mk .Newc TRAILER_NAME 1 2 3 4 5 6 7 8 9 10 11 12).name = TRAILER_NAME) ∧
    ((Entry.mk .Newc TRAILER_NAME 1 2 3 4 5 6 7 8 9 10 11 12).is_trailer =
      (Entry.mk .Crc TRAILER_NAME 0 0 0 0 0 0 0 0 0 0 0 0).is_trailer) :=
  ⟨rfl,
    (c8_is_trailer_iff (Entry.mk .Newc TRAILER_NAME 1 2 3 4 5 6 7 8 9 10 11 12)
      (Entry.mk .Crc TRAILER_NAME 0 0 0 0 0 0 0 0 0 0 0 0)).1,
    (c8_is_trailer_iff (Entry.mk .Newc TRAILER_NAME 1 2 3 4 5 6 7 8 9 10 11 12)
      (Entry.mk .Crc TRAILER_NAME 0 0 0 0 0 0 0 0 0 0 0 0)).2 rfl⟩

/-- **C9.** The reader invariant `bytes_read ≤ file_size`: a freshly parsed
`Reader` starts at `bytes_read = 0`, `read` preserves the invariant, and
under the invariant the subtraction `file_size - bytes_read` performed by
`read`, `finish`, `to_writer` and `skip` is exact (never underflows), as
`file_size - bytes_read + bytes_read = file_size` states in `Nat`. -/
theorem c9_bytes_read_invariant (bs : List Nat) (r0 r : Reader) (bufLen : Nat) :
    (Reader.new bs = .ok r0 → r0.bytes_read = 0) ∧
    (r.bytes_read ≤ r.entry.file_size →
      (r.read bufLen).2.2.bytes_read ≤ (r.read bufLen).2.2.entry.file_size ∧
      r.entry.file_size - r.bytes_read + r.bytes_read = r.entry.file_size) := by
  constructor
  · exact fun h => Reader_new_bytes_read h
  · intro h
    refine ⟨?_, by omega⟩
    unfold Reader.read
    by_cases hl : 0 < min bufLen (r.entry.file_size - r.bytes_read)
    · simp only [if_pos hl, List.length_take]
      omega
    · simp only [if_neg hl]
      exact h

/-- **C9 (witness).** The invariant at a concrete archive (one entry named
`"a"`, payload `"hi"`) and at a concrete half-read reader state. -/
theorem c9_bytes_read_invariant_witness :
    ((Reader.mk [9, 9] (Entry.mk .Newc [65] 0 0 0 0 1 0 2 0 0 0 0 0) 1).bytes_read ≤
      (Reader.mk [9, 9] (Entry.mk .Newc [65] 0 0 0 0 1 0 2 0 0 0 0 0) 1).entry.file_size) ∧
    (((Reader.mk [9, 9] (Entry.mk .Newc [65] 0 0 0 0 1 0 2 0 0 0 0 0) 1).read 4).2.2.bytes_read ≤
      ((Reader.mk [9, 9] (Entry.mk .Newc [65] 0 0 0 0 1 0 2 0 0 0 0 0) 1).read 4).2.2.entry.file_size ∧
      (Reader.mk [9, 9] (Entry.mk .Newc [65] 0 0 0 0 1 0 2 0 0 0 0 0) 1).entry.file_size -
        (Reader.mk [9, 9] (Entry.mk .Newc [65] 0 0 0 0 1 0 2 0 0 0 0 0) 1).bytes_read +
        (Reader.mk [9, 9] (Entry.mk .Newc [65] 0 0 0 0 1 0 2 0 0 0 0 0) 1).bytes_read =
      (Reader.mk [9, 9] (Entry.mk .Newc [65] 0 0 0 0 1 0 2 0 0 0 0 0) 1).entry.file_size) :=
  ⟨by decide,
    (c9_bytes_read_invariant []
      (Reader.mk [9, 9] (Entry.mk .Newc [65] 0 0 0 0 1 0 2 0 0 0 0 0) 1)
      (Reader.mk [9, 9] (Entry.mk .Newc [65] 0 0 0 0 1 0 2 0 0 0 0 0) 1) 4).2
      (by decide)⟩

/-- **C10 (counterexample).** The claim's characterisation "accepts exactly
when `written + (len(buf) mod 2^32) ≤ file_size`" reads the comparison in
plain arithmetic, but the `u32` addition itself also wraps (release
semantics): at `written = file_size = 2^32 - 1` with a buffer of `2^32 - 1`
bytes, the claim's formula rejects (`2^33 - 2 > 2^32 - 1`) yet the code's
wrapped guard accepts. -/
theorem c10_guard_counterexample :
    (List.replicate (2 ^ 32 - 1) (0 : Nat)).length = 2 ^ 32 - 1 ∧
    ¬ ((Writer.mk [] (2 ^ 32 - 1) (2 ^ 32 - 1) 112 []).written +
        (2 ^ 32 - 1) % 2 ^ 32 ≤
        (Writer.mk [] (2 ^ 32 - 1) (2 ^ 32 - 1) 112 []).file_size) ∧
    ∃ n w', Writer.write (Writer.mk [] (2 ^ 32 - 1) (2 ^ 32 - 1) 112 [])
      (List.replicate (2 ^ 32 - 1) 0) 0 = .ok (n, w') := by
  refine ⟨List.length_replicate _ _, by decide, ⟨_, _, Writer_write_ok _ _ _ ?_⟩⟩
  rw [List.length_replicate]
  decide

/-- **C10 (amended).** `Writer::write` performs its declared-size guard in
wrapping 32-bit arithmetic on both the buffer-length cast and the addition:
it accepts exactly when `(written + (len(buf) mod 2^32)) mod 2^32 ≤
file_size`; this coincides with the exact check `written + len(buf) ≤
file_size` whenever `len(buf) < 2^32` and the sum does not overflow; and for
a buffer of length `2^32` the guard accepts a write whose true length exceeds
the declared size. -/
theorem c10_guard_truncation (w : Writer) (buf : List Nat) (accepted : Nat) :
    ((w.write buf accepted).isOk = true ↔
      (w.written + buf.length % 2 ^ 32) % 2 ^ 32 ≤ w.file_size) ∧
    (buf.length < 2 ^ 32 → w.written + buf.length < 2 ^ 32 →
      (((w.written + buf.length % 2 ^ 32) % 2 ^ 32 ≤ w.file_size) ↔
        w.written + buf.length ≤ w.file_size)) ∧
    ((List.replicate (2 ^ 32) (0 : Nat)).length = 2 ^ 32 ∧
      (0 : Nat) + 2 ^ 32 > 0 ∧
      ∃ n w', Writer.write (Writer.mk [] 0 0 112 [7]) (List.replicate (2 ^ 32) 0)
        (2 ^ 32) = .ok (n, w')) := by
  refine ⟨?_, ?_, List.length_replicate _ _, by omega, ?_⟩
  · unfold Writer.write
    by_cases hg : (w.written + buf.length % 2 ^ 32) % 2 ^ 32 ≤ w.file_size
    · rw [if_pos hg]
      exact ⟨fun _ => hg, fun _ => rfl⟩
    · rw [if_neg hg]
      constructor
      · intro hcon
        simp [Except.isOk, Except.toBool] at hcon
      · intro hcon
        exact absurd hcon hg
  · intro h1 h2
    rw [Nat.mod_eq_of_lt h1, Nat.mod_eq_of_lt h2]
  · refine ⟨_, _, Writer_write_ok _ _ _ ?_⟩
    rw [List.length_replicate, Nat.mod_self]
    decide

/-- **C10 (witness).** The amended guard law at a concrete writer and buffer:
declared size 5, 3-byte buffer, fully accepted. -/
theorem c10_guard_truncation_witness :
    ((Writer.write (Writer.mk [] 0 5 0 [7]) [1, 2, 3] 3).isOk = true ↔
      ((Writer.mk [] 0 5 0 [7]).written + ([1, 2, 3] : List Nat).length % 2 ^ 32) %
        2 ^ 32 ≤ (Writer.mk [] 0 5 0 [7]).file_size) ∧
    (([1, 2, 3] : List Nat).length < 2 ^ 32 →
      (Writer.mk [] 0 5 0 [7]).written + ([1, 2, 3] : List Nat).length < 2 ^ 32 →
      ((((Writer.mk [] 0 5 0 [7]).written + ([1, 2, 3] : List Nat).length % 2 ^ 32) %
          2 ^ 32 ≤ (Writer.mk [] 0 5 0 [7]).file_size) ↔
        (Writer.mk [] 0 5 0 [7]).written + ([1, 2, 3] : List Nat).length ≤
          (Writer.mk [] 0 5 0 [7]).file_size)) ∧
    ((List.replicate (2 ^ 32) (0 : Nat)).length = 2 ^ 32 ∧
      (0 : Nat) + 2 ^ 32 > 0 ∧
      ∃ n w', Writer.write (Writer.mk [] 0 0 112 [7]) (List.replicate (2 ^ 32) 0)
        (2 ^ 32) = .ok (n, w')) :=
  c10_guard_truncation (Writer.mk [] 0 5 0 [7]) [1, 2, 3] 3

end Cpio